import Mathlib

set_option autoImplicit false
set_option linter.unusedVariables false

/-!
Shallow embedding of the core of the P-minimal multi-objective Boolean
optimization solver (`src/pminimal.rs` and `core/src/types.rs`), together
with proofs about the solver's data model, objective encodings, dominance
blocking and the search loop.

Rust `usize` values are modelled as `Nat` and `isize` values as `Int`; no
arithmetic in the verified paths approaches the machine-word bounds, and
every subtraction in a verified statement is guarded the same way the
source guards it.  The external collaborators (the CDCL oracle and the
incremental cardinality / pseudo-Boolean encoders) are modelled
abstractly: the oracle as an append-only clause/unit store plus explicit
solve functions passed as parameters, the encoders as records of the
functions the core consumes.  Loggers and the termination callback are
modelled as absent (none attached), matching the default solver
configuration.
-/

/-- Three-valued assignment value, mirroring rustsat's `TernaryVal`. -/
inductive TernaryVal where
  | True
  | False
  | DontCare
deriving DecidableEq, Repr

/-- Negation on `TernaryVal` (used to evaluate negative literals). -/
def negTV : TernaryVal → TernaryVal
  | .True => .False
  | .False => .True
  | .DontCare => .DontCare

/-- A literal: a variable index and a polarity (`pos = true` for the positive
literal), mirroring rustsat's `Lit`. -/
structure Lit where
  v : Nat
  pos : Bool
deriving DecidableEq, Repr

/-- Literal negation (`!l` in the source): same variable, flipped polarity. -/
def Lit.neg (l : Lit) : Lit := ⟨l.v, !l.pos⟩

theorem Lit.neg_neg (l : Lit) : l.neg.neg = l := by
  cases l with
  | mk v p => simp [Lit.neg]

theorem Lit.neg_v (l : Lit) : l.neg.v = l.v := rfl

theorem Lit.ne_neg (l : Lit) : l.neg ≠ l := by
  cases l with
  | mk v p => cases p <;> simp [Lit.neg]

/-- Two literals over the same variable are equal or negations of each other. -/
theorem Lit.eq_or_eq_neg_of_v_eq {l1 l2 : Lit} (h : l1.v = l2.v) :
    l1 = l2 ∨ l1 = l2.neg := by
  cases l1 with
  | mk v1 p1 =>
    cases l2 with
    | mk v2 p2 =>
      simp only at h
      subst h
      cases p1 <;> cases p2 <;> simp [Lit.neg]

/-- A clause is a list of literals. -/
abbrev Clause := List Lit

/-- An assignment, mirroring rustsat's `Assignment`: a vector of ternary
values indexed by variable; variables beyond the vector are `DontCare`. -/
abbrev Assignment := List TernaryVal

/-- Value of a variable under an assignment (`DontCare` when out of range). -/
def var_value (sol : Assignment) (v : Nat) : TernaryVal :=
  sol.getD v .DontCare

/-- Value of a literal under an assignment (rustsat `Assignment::lit_value`). -/
def lit_value (sol : Assignment) (l : Lit) : TernaryVal :=
  if l.pos then var_value sol l.v else negTV (var_value sol l.v)

/-- Assign a variable, mirroring rustsat `Assignment::assign_var`: the vector
is first resized with `DontCare` if needed, then the slot is written. -/
def assign_var (sol : Assignment) (v : Nat) (val : TernaryVal) : Assignment :=
  (if sol.length < v + 1 then
    sol ++ List.replicate (v + 1 - sol.length) TernaryVal.DontCare
   else sol).set v val

/-- Assign a literal to true (rustsat `Assignment::assign_lit`). -/
def assign_lit (sol : Assignment) (l : Lit) : Assignment :=
  assign_var sol l.v (if l.pos then .True else .False)

theorem var_value_append_replicate (sol : Assignment) (k v : Nat) :
    var_value (sol ++ List.replicate k TernaryVal.DontCare) v = var_value sol v := by
  unfold var_value
  rcases lt_or_ge v sol.length with h | h
  · rw [List.getD_eq_get?, List.getD_eq_get?, List.get?_append h]
  · rw [List.getD_eq_get?, List.getD_eq_get?, List.get?_append_right h]
    rw [List.get?_eq_none.mpr h]
    rcases lt_or_ge (v - sol.length) k with h2 | h2
    · rw [List.get?_eq_get (by simpa using h2)]
      simp
    · rw [List.get?_eq_none.mpr (by simpa using h2)]

theorem var_value_assign_var_ne (sol : Assignment) (v : Nat) (val : TernaryVal)
    (w : Nat) (h : w ≠ v) : var_value (assign_var sol v val) w = var_value sol w := by
  unfold assign_var
  split
  · unfold var_value
    rw [List.getD_eq_get?, List.get?_set_ne _ _ (fun hc => h hc.symm)]
    rw [← List.getD_eq_get?]
    exact var_value_append_replicate sol _ w
  · unfold var_value
    rw [List.getD_eq_get?, List.get?_set_ne _ _ (fun hc => h hc.symm), ← List.getD_eq_get?]

theorem var_value_assign_var_self (sol : Assignment) (v : Nat) (val : TernaryVal) :
    var_value (assign_var sol v val) v = val := by
  unfold assign_var var_value
  split
  · rename_i h
    rw [List.getD_eq_get?, List.get?_set_eq]
    have hlen : v < (sol ++ List.replicate (v + 1 - sol.length) TernaryVal.DontCare).length := by
      simp only [List.length_append, List.length_replicate]
      omega
    simp [List.getElem?_eq_getElem hlen]
  · rename_i h
    rw [List.getD_eq_get?, List.get?_set_eq]
    have hlen : v < sol.length := by omega
    simp [List.getElem?_eq_getElem hlen]

theorem lit_value_assign_lit_ne (sol : Assignment) (m l : Lit) (h : l.v ≠ m.v) :
    lit_value (assign_lit sol m) l = lit_value sol l := by
  unfold lit_value assign_lit
  rw [var_value_assign_var_ne sol m.v _ l.v h]

theorem lit_value_assign_lit_self (sol : Assignment) (m : Lit) :
    lit_value (assign_lit sol m) m = .True := by
  unfold lit_value assign_lit
  rw [var_value_assign_var_self]
  cases hp : m.pos <;> simp [hp, negTV]

theorem lit_value_assign_lit_neg_self (sol : Assignment) (m : Lit) :
    lit_value (assign_lit sol m) m.neg = .False := by
  unfold lit_value assign_lit
  rw [Lit.neg_v, var_value_assign_var_self]
  cases hp : m.pos <;> simp [hp, Lit.neg, negTV]

/-- First-match lookup in an association list (models `RsHashMap` lookup;
hash maps hold at most one entry per key, so first-match is exact). -/
def alookup {α β : Type} [DecidableEq α] : List (α × β) → α → Option β
  | [], _ => none
  | p :: rest, k => if p.1 = k then some p.2 else alookup rest k

/-- Key-membership test in an association list (`RsHashMap::contains_key`). -/
def contains_key {α β : Type} [DecidableEq α] (m : List (α × β)) (k : α) : Bool :=
  (alookup m k).isSome

/-- Result of an oracle `solve` / `solve_assumps` call. -/
inductive SolverResult where
  | Sat
  | Unsat
  | Interrupted
deriving DecidableEq, Repr

/-- Typed terminations of a solve run (loggers are modelled absent, so the
`LoggerError` variant is never produced and is omitted). -/
inductive Termination where
  | Callback
  | OracleCallsLimit
  | CandidatesLimit
  | SolsLimit
  | PPLimit
deriving DecidableEq, Repr

/-- The observable, append-only state of the SAT oracle: clauses added via
`add_clause`/`add_cnf` and unit clauses added via `add_unit`. -/
structure OracleState where
  clauses : List Clause
  units : List Lit
deriving DecidableEq, Repr

def add_clause (st : OracleState) (cl : Clause) : OracleState :=
  { st with clauses := st.clauses ++ [cl] }

def add_cnf (st : OracleState) (cnf : List Clause) : OracleState :=
  { st with clauses := st.clauses ++ cnf }

def add_unit (st : OracleState) (l : Lit) : OracleState :=
  { st with units := st.units ++ [l] }

namespace Core

/-- Error type of the incremental encoders (rustsat `encodings::Error`);
only the `Unsat` variant is relevant to the core. -/
inductive EncError where
  | Unsat
  | NotEncoded
deriving DecidableEq, Repr

/-- Abstract incremental upper-bound encoder (external collaborator,
rustsat's cardinality / pseudo-Boolean encoder): the three functions the
adapter in `core/src/types.rs` consumes. -/
structure InnerEnc where
  enforce_ub : Nat → Except EncError (List Lit)
  encode_ub_change : Nat → Nat → List Clause
  next_higher : Nat → Nat

/-- `ObjEncoding` from `core/src/types.rs`: an encoder together with the
internal offset used by the encoder (a `usize`). -/
inductive ObjEncoding where
  | Weighted (enc : InnerEnc) (offset : Nat)
  | Unweighted (enc : InnerEnc) (offset : Nat)
  | Constant

/-- `ObjEncoding::offset` from `core/src/types.rs`. -/
def ObjEncoding.offset : ObjEncoding → Nat
  | .Weighted _ o => o
  | .Unweighted _ o => o
  | .Constant => 0

/-- `ObjEncoding::next_higher` from `core/src/types.rs`. -/
def ObjEncoding.next_higher : ObjEncoding → Nat → Nat
  | .Weighted enc offset, val => enc.next_higher (val - offset) + offset
  | .Unweighted _ _, val => val + 1
  | .Constant, val => val

/-- `ObjEncoding::encode_ub_change` from `core/src/types.rs`: translates the
external range into encoder coordinates, clamping at zero, and returns the
clauses the inner encoder emits; `Constant` emits nothing. -/
def ObjEncoding.encode_ub_change : ObjEncoding → Nat → Nat → List Clause
  | .Weighted enc offset, s, e =>
      enc.encode_ub_change (if s ≥ offset then s - offset else 0)
        (if e ≥ offset then e - offset else 0)
  | .Unweighted enc offset, s, e =>
      enc.encode_ub_change (if s ≥ offset then s - offset else 0)
        (if e ≥ offset then e - offset else 0)
  | .Constant, _, _ => []

/-- `ObjEncoding::enforce_ub` from `core/src/types.rs`. -/
def ObjEncoding.enforce_ub : ObjEncoding → Nat → Except EncError (List Lit)
  | .Weighted enc offset, ub =>
      if ub ≥ offset then enc.enforce_ub (ub - offset) else .error .Unsat
  | .Unweighted enc offset, ub =>
      if ub ≥ offset then enc.enforce_ub (ub - offset) else .error .Unsat
  | .Constant, _ => .ok []

/-- Insert into an association list with hash-map semantics: an existing
entry for the key is overwritten, otherwise the pair is appended.  This is
the semantics of `RsHashMap::insert` and of collecting an iterator with
duplicate keys into a hash map (later values win). -/
def insertMap (m : List (Lit × Nat)) (l : Lit) (w : Nat) : List (Lit × Nat) :=
  if contains_key m l then
    m.map (fun p => if p.1 = l then (l, w) else p)
  else
    m ++ [(l, w)]

/-- `Objective` from `core/src/types.rs`. -/
inductive Objective where
  | Weighted (offset : Int) (lits : List (Lit × Nat))
  | Unweighted (offset : Int) (unit_weight : Nat) (lits : List Lit)
  | Constant (offset : Int)
deriving DecidableEq, Repr

/-- `Objective::new` from `core/src/types.rs`: classify the collected
weighted-literal list; for the weighted case, `lits.into_iter().collect()`
builds a hash map, so duplicate literals keep the last weight seen. -/
def Objective.new (lits : List (Lit × Nat)) (offset : Int) : Objective :=
  match lits with
  | [] => .Constant offset
  | (l0, w0) :: rest =>
    let unit_weight := w0
    let weighted := ((l0, w0) :: rest).any (fun p => decide (p.2 ≠ unit_weight))
    if weighted then
      .Weighted offset (((l0, w0) :: rest).foldl (fun m p => insertMap m p.1 p.2) [])
    else
      .Unweighted offset unit_weight (((l0, w0) :: rest).map Prod.fst)

/-- `Objective::offset` from `core/src/types.rs`. -/
def Objective.offset : Objective → Int
  | .Weighted o _ => o
  | .Unweighted o _ _ => o
  | .Constant o => o

/-- The unified `(literal, weight)` iterator over an `Objective`
(`Objective::iter` / `ObjIter::next` from `core/src/types.rs`): the
unweighted variant pairs every literal with weight `1`. -/
def Objective.iter : Objective → List (Lit × Nat)
  | .Weighted _ lits => lits
  | .Unweighted _ _ lits => lits.map (fun l => (l, 1))
  | .Constant _ => []

end Core

namespace Pm

/-- Abstract incremental pseudo-Boolean encoder (external collaborator, the
`PBE` generic of `src/pminimal.rs`): the literal/weight pairs its iterator
yields and the two bound functions the solver consumes.  The statefulness
of the real encoder (growing on `encode_ub_change`) is invisible to the
verified properties, so the functions are modelled pure. -/
structure PbEnc where
  lits : List (Lit × Nat)
  encode_ub_change : Nat → Nat → List Clause
  enforce_ub : Nat → List Lit

/-- Abstract incremental cardinality encoder (the `CE` generic of
`src/pminimal.rs`): its iterator yields plain literals. -/
structure CardEnc where
  lits : List Lit
  encode_ub_change : Nat → Nat → List Clause
  enforce_ub : Nat → List Lit

/-- `ObjEncoding` from `src/pminimal.rs`: per-objective encoding with the
external (signed) offset, and for the unweighted case the unit weight. -/
inductive ObjEncoding where
  | Weighted (offset : Int) (encoding : PbEnc)
  | Unweighted (offset : Int) (unit_weight : Nat) (encoding : CardEnc)
  | Constant (offset : Int)

/-- `ObjEncoding::offset` from `src/pminimal.rs`. -/
def ObjEncoding.offset : ObjEncoding → Int
  | .Weighted o _ => o
  | .Unweighted o _ _ => o
  | .Constant o => o

/-- The unified iterator over an objective encoding
(`ObjEncoding::iter` / `ObjEncIter::next` from `src/pminimal.rs`): the
unweighted encoder's literals are paired with weight `1`. -/
def ObjEncoding.iter : ObjEncoding → List (Lit × Nat)
  | .Weighted _ e => e.lits
  | .Unweighted _ _ e => e.lits.map (fun l => (l, 1))
  | .Constant _ => []

/-- `ParetoPoint` (named `NonDomPoint` in `core/src/types.rs`): a cost tuple
with the solutions witnessing it. -/
structure ParetoPoint where
  costs : List Int
  sols : List Assignment
deriving DecidableEq, Repr

def ParetoPoint.new (costs : List Int) : ParetoPoint := ⟨costs, []⟩

def ParetoPoint.add_sol (pp : ParetoPoint) (sol : Assignment) : ParetoPoint :=
  { pp with sols := pp.sols ++ [sol] }

def ParetoPoint.n_sols (pp : ParetoPoint) : Nat := pp.sols.length

/-- The Pareto front: an ordered sequence of points; `add_pp` appends. -/
abbrev ParetoFront := List ParetoPoint

/-- Running statistics (`Stats`). -/
structure Stats where
  n_solve_calls : Nat := 0
  n_oracle_calls : Nat := 0
  n_candidates : Nat := 0
  n_solutions : Nat := 0
  n_pareto_points : Nat := 0
  n_objs : Nat := 0
  n_orig_clauses : Nat := 0
deriving DecidableEq, Repr

/-- Per-run limits (`Limits`); `none` means unlimited. -/
structure Limits where
  oracle_calls : Option Nat := none
  candidates : Option Nat := none
  sols : Option Nat := none
  pps : Option Nat := none
deriving DecidableEq, Repr

/-- `Limits::none()`: no limit set. -/
def Limits.unlimited : Limits := {}

/-- Enumeration options (`EnumOptions`). -/
inductive EnumOptions where
  | NoEnum
  | Solutions (limit : Option Nat)
  | PMCSs (limit : Option Nat)
deriving DecidableEq, Repr

/-- `ObjLitData` from `src/pminimal.rs`. -/
structure ObjLitData where
  objs : List Nat
  clauses : List Nat
deriving DecidableEq, Repr

/-- The state of the `PMinimal` solver that the verified routines touch.
The variable manager is the monotone counter `next_var`; loggers and the
termination callback are modelled as not attached. -/
structure SolverState where
  oracle : OracleState
  obj_encs : List ObjEncoding
  obj_clauses : List Clause
  blits : List (Clause × Lit)
  obj_lit_data : List (Lit × ObjLitData)
  max_orig_var : Option Nat
  next_var : Nat
  pareto_front : ParetoFront
  enumeration : EnumOptions
  solution_guided_search : Bool
  must_store_clauses : Bool
  stats : Stats
  lims : Limits

/-- `log_solution` from `src/pminimal.rs`: bump the counter, then decrement
the solutions limit and terminate with `SolsLimit` when it reaches zero.
The mutations persist even when a termination is returned (the source
mutates through `&mut self`), so the updated state is returned in both
cases. -/
def log_solution (s : SolverState) : SolverState × Option Termination :=
  let s := { s with stats := { s.stats with n_solutions := s.stats.n_solutions + 1 } }
  match s.lims.sols with
  | some n =>
    let n := n - 1
    let s := { s with lims := { s.lims with sols := some n } }
    if n = 0 then (s, some .SolsLimit) else (s, none)
  | none => (s, none)

/-- `log_pareto_point` from `src/pminimal.rs` (the point itself is only
forwarded to loggers, which are modelled absent). -/
def log_pareto_point (pp : ParetoPoint) (s : SolverState) :
    SolverState × Option Termination :=
  let s := { s with stats := { s.stats with n_pareto_points := s.stats.n_pareto_points + 1 } }
  match s.lims.pps with
  | some n =>
    let n := n - 1
    let s := { s with lims := { s.lims with pps := some n } }
    if n = 0 then (s, some .PPLimit) else (s, none)
  | none => (s, none)

/-- `log_oracle_call` from `src/pminimal.rs`. -/
def log_oracle_call (s : SolverState) : SolverState × Option Termination :=
  let s := { s with stats := { s.stats with n_oracle_calls := s.stats.n_oracle_calls + 1 } }
  match s.lims.oracle_calls with
  | some n =>
    let n := n - 1
    let s := { s with lims := { s.lims with oracle_calls := some n } }
    if n = 0 then (s, some .OracleCallsLimit) else (s, none)
  | none => (s, none)

/-- `check_terminator` from `src/pminimal.rs`; the callback is modelled as
not attached, so the check never terminates the run. -/
def check_terminator (s : SolverState) : SolverState × Option Termination :=
  (s, none)

/-- `unphase_solution` from `src/pminimal.rs`: resets oracle phases, which
are not part of the observable oracle state modelled here. -/
def unphase_solution (s : SolverState) : SolverState := s

/-- One step of `enforce_dominating` from `src/pminimal.rs`, for one
objective with internal cost `p.1`: grow the encoding for `cst..cst+1`
(clauses go to the oracle) and collect the `enforce_ub(cst)` assumptions;
constant objectives contribute nothing. -/
def enforce_dominating_step (acc : List Lit × SolverState) (p : Nat × ObjEncoding) :
    List Lit × SolverState :=
  let assumps := acc.1
  let s := acc.2
  let cst := p.1
  match p.2 with
  | .Weighted _ enc =>
    let s := { s with oracle := add_cnf s.oracle (enc.encode_ub_change cst (cst + 1)) }
    (assumps ++ enc.enforce_ub cst, s)
  | .Unweighted _ _ enc =>
    let s := { s with oracle := add_cnf s.oracle (enc.encode_ub_change cst (cst + 1)) }
    (assumps ++ enc.enforce_ub cst, s)
  | .Constant _ => (assumps, s)

/-- `enforce_dominating` from `src/pminimal.rs`: fold the per-objective step
over the cost tuple. -/
def enforce_dominating (costs : List Nat) (s : SolverState) :
    List Lit × SolverState :=
  (costs.zip s.obj_encs).foldl enforce_dominating_step ([], s)

/-- `externalize_internal_costs` from `src/pminimal.rs`:
external = internal + offset (weighted), internal * unit_weight + offset
(unweighted), offset (constant). -/
def externalize_internal_costs (encs : List ObjEncoding) (costs : List Nat) :
    List Int :=
  (costs.zip encs).map fun p =>
    match p.2 with
    | .Weighted offset _ => (p.1 : Int) + offset
    | .Unweighted offset unit_weight _ => ((p.1 * unit_weight : Nat) : Int) + offset
    | .Constant offset => offset

/-- rustsat `Assignment::truncate`: drop assignments of variables above
`max_var`. -/
def truncate (sol : Assignment) (max_var : Nat) : Assignment :=
  sol.take (max_var + 1)

/-- `block_pareto_mcs` from `src/pminimal.rs`: negations of all objective
literals true under the solution; `normalize` deduplicates (the tautology
rejection cannot trigger here since all collected literals are negations
of literals true under one assignment). -/
def block_pareto_mcs (s : SolverState) (sol : Assignment) : Clause :=
  let cl := s.obj_encs.foldl
    (fun cl oe =>
      oe.iter.foldl
        (fun cl p => if lit_value sol p.1 = .True then cl ++ [p.1.neg] else cl)
        cl)
    []
  cl.dedup

/-- `dominated_block_clause` from `src/pminimal.rs`: for every objective
with positive cost, grow the encoding for `cst-1..cst`, take the
`enforce_ub(cst-1)` assumptions; a single assumption goes into the clause
directly, two or more are Tseitin-conjoined through a fresh literal
(clauses `¬t ∨ a_j`). -/
def dominated_block_clause (costs : List Nat) (s : SolverState) :
    Clause × SolverState :=
  (costs.zip s.obj_encs).foldl
    (fun (acc : Clause × SolverState) p =>
      let clause := acc.1
      let s := acc.2
      let cst := p.1
      if cst = 0 then (clause, s)
      else
        match p.2 with
        | .Weighted _ enc =>
          let s := { s with oracle := add_cnf s.oracle (enc.encode_ub_change (cst - 1) cst) }
          let assumps := enc.enforce_ub (cst - 1)
          if assumps.length = 1 then (clause ++ [assumps.getD 0 ⟨0, true⟩], s)
          else
            let and_lit : Lit := ⟨s.next_var, true⟩
            let s := { s with next_var := s.next_var + 1,
                              oracle := add_cnf s.oracle
                                (assumps.map fun a => [and_lit.neg, a]) }
            (clause ++ [and_lit], s)
        | .Unweighted _ _ enc =>
          let s := { s with oracle := add_cnf s.oracle (enc.encode_ub_change (cst - 1) cst) }
          let assumps := enc.enforce_ub (cst - 1)
          if assumps.length = 1 then (clause ++ [assumps.getD 0 ⟨0, true⟩], s)
          else
            let and_lit : Lit := ⟨s.next_var, true⟩
            let s := { s with next_var := s.next_var + 1,
                              oracle := add_cnf s.oracle
                                (assumps.map fun a => [and_lit.neg, a]) }
            (clause ++ [and_lit], s)
        | .Constant _ => (clause, s))
    ([], s)

/-- `tmp_block_dominated` from `src/pminimal.rs`: extend the dominated-block
clause with a fresh positive switch literal, add it to the oracle, and
return the negated switch as the activating assumption. -/
def tmp_block_dominated (costs : List Nat) (s : SolverState) :
    Lit × SolverState :=
  let r := dominated_block_clause costs s
  let clause := r.1
  let s := r.2
  let block_lit : Lit := ⟨s.next_var, true⟩
  let s := { s with next_var := s.next_var + 1 }
  let clause := clause ++ [block_lit]
  let s := { s with oracle := add_clause s.oracle clause }
  (block_lit.neg, s)

/-- The blocking step inside `p_minimization` (`src/pminimal.rs`, the
enumeration-enabled branch): commit the previous retractable block by
adding its stored literal as a unit, then install a fresh retractable
block and push its activating literal onto the assumptions. -/
def p_min_block_step (block_switch : Option Lit) (costs : List Nat)
    (assumps : List Lit) (s : SolverState) :
    Option Lit × List Lit × SolverState :=
  let s := match block_switch with
    | some block_lit => { s with oracle := add_unit s.oracle block_lit }
    | none => s
  let r := tmp_block_dominated costs s
  (some r.1, assumps ++ [r.1], r.2)

/-- The commit step in `alg_main` (`src/pminimal.rs`, after
`enumerate_at_pareto_point`): the stored `block_switch` literal is added
to the oracle as a unit, making the last retractable block permanent. -/
def commit_block (block_switch : Option Lit) (s : SolverState) : SolverState :=
  match block_switch with
  | some block_lit => { s with oracle := add_unit s.oracle block_lit }
  | none => s

end Pm

namespace Pm

/-- `add_soft_clause` from `src/pminimal.rs`.  A unit soft clause yields the
negated unit literal and nothing to add; a cached multi-literal clause
reuses its blit; otherwise a fresh blit is allocated, cached, optionally
recorded in `obj_clauses`, and the relaxed clause `cls ∨ blit` is returned
for the oracle. -/
def add_soft_clause (cls : Clause) (s : SolverState) :
    (Lit × Option (Option Nat × Clause)) × SolverState :=
  if cls.length = 1 then
    (((cls.getD 0 ⟨0, true⟩).neg, none), s)
  else
    match alookup s.blits cls with
    | some blit => ((blit, none), s)
    | none =>
      let blit : Lit := ⟨s.next_var, true⟩
      let s := { s with next_var := s.next_var + 1, blits := s.blits ++ [(cls, blit)] }
      let r :=
        if s.must_store_clauses then
          (some s.obj_clauses.length, { s with obj_clauses := s.obj_clauses ++ [cls] })
        else (none, s)
      ((blit, some (r.1, cls ++ [blit])), r.2)

/-- The objective-literal bookkeeping step of `add_objective` from
`src/pminimal.rs`: record that `olit` appears in objective `obj_idx`,
creating the entry if absent. -/
def track_olit (olit : Lit) (obj_idx : Nat) (m : List (Lit × ObjLitData)) :
    List (Lit × ObjLitData) :=
  match alookup m olit with
  | some _ =>
    m.map fun p =>
      if p.1 = olit then (p.1, { p.2 with objs := p.2.objs ++ [obj_idx] }) else p
  | none => m ++ [(olit, ⟨[obj_idx], []⟩)]

/-- `find_flip_witness` from `src/pminimal.rs`: for every stored clause the
literal appears in, pick the first other literal true under the solution;
fail if some clause has none.  The witness is collected as a set
(`RsHashSet::insert`). -/
def find_flip_witness (s : SolverState) (lit : Lit) (sol : Assignment) :
    Option (List Lit) :=
  match alookup s.obj_lit_data lit with
  | none => none
  | some lit_data =>
    lit_data.clauses.foldl
      (fun witness cl_idx =>
        match witness with
        | some w =>
          match
            (s.obj_clauses.getD cl_idx []).foldl
              (fun sat_lit other =>
                if sat_lit.isSome ∨ other = lit then sat_lit
                else if lit_value sol other = .True then some other
                else sat_lit)
              none
          with
          | some other => some (if other ∈ w then w else w ++ [other])
          | none => none
        | none => none)
      (some [])

/-- The fold inside `get_cost_with_heuristic_improvements` from
`src/pminimal.rs`, over the objective's literal/weight pairs, threading
the (possibly tightened) solution, the cost accumulator, the reduction
counter and the learned clauses. -/
def gchi_fold (s : SolverState) (tightening learning : Bool) :
    List (Lit × Nat) → Assignment → Nat → Nat → List Clause →
    Assignment × Nat × Nat × List Clause
  | [], sol, cst, reduction, learned => (sol, cst, reduction, learned)
  | (l, w) :: rest, sol, cst, reduction, learned =>
    if lit_value sol l = .True then
      if (tightening || learning) && !(contains_key s.obj_lit_data l.neg) then
        match find_flip_witness s l sol with
        | some witness =>
          let learned :=
            if learning then learned ++ [witness.map Lit.neg ++ [l.neg]] else learned
          if tightening then
            gchi_fold s tightening learning rest (assign_lit sol l.neg) cst
              (reduction + w) learned
          else
            gchi_fold s tightening learning rest sol (cst + w) reduction learned
        | none => gchi_fold s tightening learning rest sol (cst + w) reduction learned
      else gchi_fold s tightening learning rest sol (cst + w) reduction learned
    else gchi_fold s tightening learning rest sol cst reduction learned

/-- `get_cost_with_heuristic_improvements` from `src/pminimal.rs`: fold over
the objective's literals, then add the learned clauses to the oracle and
report the internal cost.  (The heuristic-improvement log call only
dispatches to loggers, which are modelled absent.) -/
def get_cost_with_heuristic_improvements (s : SolverState) (obj_idx : Nat)
    (sol : Assignment) (tightening learning : Bool) :
    SolverState × Assignment × Nat :=
  let pairs := (s.obj_encs.getD obj_idx (.Constant 0)).iter
  let r := gchi_fold s tightening learning pairs sol 0 0 []
  ({ s with oracle := add_cnf s.oracle r.2.2.2 }, r.1, r.2.1)

/-- The value of an objective, given as its literal/weight pairs, under an
assignment: the sum of the weights of the literals that are true (false or
unassigned literals contribute nothing). -/
def objValue : List (Lit × Nat) → Assignment → Nat
  | [], _ => 0
  | (l, w) :: rest, sol =>
    (if lit_value sol l = .True then w else 0) + objValue rest sol

/-- `alg_main` from `src/pminimal.rs`.  The empty-encoding edge case
(`max_orig_var` unset) is embedded in full; the main loop, which the
verified properties do not enter, is abstracted as the `loop` parameter. -/
def alg_main (loopBody : SolverState → SolverState × Option Termination)
    (s : SolverState) : SolverState × Option Termination :=
  match s.max_orig_var with
  | none =>
    if s.pareto_front = [] then
      let pp := ParetoPoint.new (s.obj_encs.map ObjEncoding.offset)
      let pp := pp.add_sol ([] : Assignment)
      match log_solution s with
      | (s, some t) => (s, some t)
      | (s, none) =>
        match log_pareto_point pp s with
        | (s, some t) => (s, some t)
        | (s, none) => ({ s with pareto_front := s.pareto_front ++ [pp] }, none)
    else (s, none)
  | some _ => loopBody s

/-- `solve` from `src/pminimal.rs`: bump the solve counter, install the
limits, run the main algorithm. -/
def solve (loopBody : SolverState → SolverState × Option Termination)
    (limits : Limits) (s : SolverState) : SolverState × Option Termination :=
  let s := { s with
    stats := { s.stats with n_solve_calls := s.stats.n_solve_calls + 1 },
    lims := limits }
  alg_main loopBody s

/-- The enumeration loop of `enumerate_at_pareto_point` from
`src/pminimal.rs`.  `oracleSolve` and `oracleSolution` model the oracle's
`solve_assumps` and `solution` calls; `bcg` is the blocking-clause
generator.  The loop is structurally bounded by `fuel` (the source loops
until the oracle or a limit stops it); `none` is returned exactly on fuel
exhaustion and never arises in the verified statements. -/
def enum_loop (oracleSolve : List Lit → OracleState → SolverResult × OracleState)
    (oracleSolution : Nat → OracleState → Assignment)
    (bcg : Assignment → Clause) (assumps : List Lit) :
    Nat → ParetoPoint → Assignment → SolverState →
    Option (SolverState × Option Termination)
  | 0, _, _, _ => none
  | fuel + 1, pp, solution, s =>
    let pp := pp.add_sol solution
    match log_solution s with
    | (s, some term) =>
      let r := log_pareto_point pp s
      let s := { r.1 with pareto_front := r.1.pareto_front ++ [pp] }
      match r.2 with
      | some t => some (s, some t)
      | none => some (s, some term)
    | (s, none) =>
      if (match s.enumeration with
          | .NoEnum => true
          | .Solutions (some limit) => pp.n_sols ≥ limit
          | .PMCSs (some limit) => pp.n_sols ≥ limit
          | _ => false) then
        let r := log_pareto_point pp s
        some ({ r.1 with pareto_front := r.1.pareto_front ++ [pp] }, r.2)
      else
        let s := (check_terminator s).1
        let s := match s.enumeration with
          | .Solutions _ => { s with oracle := add_clause s.oracle (bcg solution) }
          | .PMCSs _ => { s with oracle := add_clause s.oracle (block_pareto_mcs s solution) }
          | .NoEnum => s
        let r := oracleSolve assumps s.oracle
        let s := { s with oracle := r.2 }
        if r.1 = .Interrupted then some (s, some .Callback)
        else
          match log_oracle_call s with
          | (s, some term) => some (s, some term)
          | (s, none) =>
            if r.1 = .Unsat then
              let r2 := log_pareto_point pp s
              some ({ r2.1 with pareto_front := r2.1.pareto_front ++ [pp] }, r2.2)
            else
              let s := (check_terminator s).1
              let solution := oracleSolution (s.max_orig_var.getD 0) s.oracle
              enum_loop oracleSolve oracleSolution bcg assumps fuel pp solution s

/-- `enumerate_at_pareto_point` from `src/pminimal.rs`: unphase, fix the
dominance assumptions, externalize the costs into a fresh Pareto point,
truncate the solution to the original variables, and run the enumeration
loop. -/
def enumerate_at_pareto_point
    (oracleSolve : List Lit → OracleState → SolverResult × OracleState)
    (oracleSolution : Nat → OracleState → Assignment)
    (bcg : Assignment → Clause) (fuel : Nat) (costs : List Nat)
    (solution : Assignment) (s : SolverState) :
    Option (SolverState × Option Termination) :=
  let s := unphase_solution s
  let r := enforce_dominating costs s
  let assumps := r.1
  let s := r.2
  let pareto_point := ParetoPoint.new (externalize_internal_costs s.obj_encs costs)
  let solution := truncate solution (s.max_orig_var.getD 0)
  enum_loop oracleSolve oracleSolution bcg assumps fuel pareto_point solution s

end Pm

/-! Concrete instances used to instantiate hypotheses in witness theorems. -/

/-- A concrete inner encoder. -/
def witEnc : Core.InnerEnc :=
  { enforce_ub := fun _ => .ok []
    encode_ub_change := fun _ _ => []
    next_higher := fun n => n + 1 }

/-- A concrete cardinality encoder over one literal. -/
def witCard : Pm.CardEnc :=
  { lits := [⟨1, true⟩]
    encode_ub_change := fun _ _ => []
    enforce_ub := fun _ => [] }

/-- A concrete solver state. -/
def witState : Pm.SolverState :=
  { oracle := ⟨[], []⟩
    obj_encs := [.Constant 0]
    obj_clauses := []
    blits := []
    obj_lit_data := []
    max_orig_var := some 0
    next_var := 5
    pareto_front := []
    enumeration := .Solutions none
    solution_guided_search := false
    must_store_clauses := true
    stats := {}
    lims := {} }

/-- C3: for every objective encoding and bound `k` strictly below the
encoding's internal offset, `enforce_ub(k)` returns `Unsat` without
consulting the inner encoder (the result is the same for every inner
encoder); for a `Constant` encoding, `enforce_ub` returns an empty
assumption set and `encode_ub_change` emits no clauses, for every bound
and range. -/
theorem c3_enforce_ub_below_offset :
    (∀ (enc : Core.InnerEnc) (off k : Nat), k < off →
      Core.ObjEncoding.enforce_ub (.Weighted enc off) k = .error .Unsat) ∧
    (∀ (enc : Core.InnerEnc) (off k : Nat), k < off →
      Core.ObjEncoding.enforce_ub (.Unweighted enc off) k = .error .Unsat) ∧
    (∀ k, Core.ObjEncoding.enforce_ub .Constant k = .ok []) ∧
    (∀ a b, Core.ObjEncoding.encode_ub_change .Constant a b = []) := by
  refine ⟨?_, ?_, fun _ => rfl, fun _ _ => rfl⟩ <;>
    · intro enc off k h
      simp only [Core.ObjEncoding.enforce_ub, ge_iff_le]
      rw [if_neg (by omega)]

theorem c3_enforce_ub_below_offset_witness :
    Core.ObjEncoding.enforce_ub (.Weighted witEnc 5) 3 = .error .Unsat ∧
    Core.ObjEncoding.enforce_ub (.Unweighted witEnc 5) 3 = .error .Unsat ∧
    Core.ObjEncoding.enforce_ub .Constant 7 = .ok [] ∧
    Core.ObjEncoding.encode_ub_change .Constant 2 9 = [] :=
  ⟨c3_enforce_ub_below_offset.1 witEnc 5 3 (by decide),
   c3_enforce_ub_below_offset.2.1 witEnc 5 3 (by decide),
   c3_enforce_ub_below_offset.2.2.1 7,
   c3_enforce_ub_below_offset.2.2.2 2 9⟩

/-- C8 counterexample: for the `Constant` variant, `next_higher(k)` returns
`k` itself, which is not strictly greater than `k`. -/
theorem c8_next_higher_constant_cex :
    Core.ObjEncoding.next_higher .Constant 0 = 0 ∧
    ¬ 0 < Core.ObjEncoding.next_higher .Constant 0 := by decide

/-- C8 amended: for the `Weighted` variant, `next_higher(k)` is strictly
greater than `k` whenever the inner encoder's `next_higher` is (its
contract) and `k` is at least the internal offset; for the `Unweighted`
variant it is exactly `k + 1`; for the `Constant` variant it is `k`
itself, not a strictly greater value. -/
theorem c8_next_higher_amended :
    (∀ (enc : Core.InnerEnc) (off k : Nat),
      (∀ v, v < enc.next_higher v) → off ≤ k →
      k < Core.ObjEncoding.next_higher (.Weighted enc off) k) ∧
    (∀ (enc : Core.InnerEnc) (off k : Nat),
      Core.ObjEncoding.next_higher (.Unweighted enc off) k = k + 1) ∧
    (∀ k, Core.ObjEncoding.next_higher .Constant k = k) := by
  refine ⟨?_, fun _ _ _ => rfl, fun _ => rfl⟩
  intro enc off k hmono hoff
  have h := hmono (k - off)
  simp only [Core.ObjEncoding.next_higher]
  omega

theorem c8_next_higher_amended_witness :
    5 < Core.ObjEncoding.next_higher (.Weighted witEnc 2) 5 :=
  c8_next_higher_amended.1 witEnc 2 5 (fun v => Nat.lt_succ_self v) (by decide)

/-- C9 counterexample: constructing an objective from a list containing a
zero weight does not fail; it produces an `Objective` (here, an
`Unweighted` objective with unit weight `0`). -/
theorem c9_zero_weight_cex :
    Core.Objective.new [(⟨1, true⟩, 0)] 0 =
      Core.Objective.Unweighted 0 0 [⟨1, true⟩] := by decide

/-- C9 amended: `Objective::new` performs no weight validation.  Its type
has no error outcome, and an input with a zero weight is accepted: a
single zero-weighted literal yields an `Unweighted` objective with unit
weight `0`. -/
theorem c9_zero_weight_amended (l : Lit) (off : Int) :
    Core.Objective.new [(l, 0)] off = Core.Objective.Unweighted off 0 [l] := by
  simp [Core.Objective.new]

/-- C6: evaluation of `Objective::new` at an input that repeats a literal.
Collecting the pairs into a hash map keeps only the last weight seen for
the duplicated literal (here `3`), instead of the sum of its weights
(`2 + 3 = 5`). -/
theorem c6_duplicate_weight_eval :
    Core.Objective.new [(⟨1, true⟩, 2), (⟨1, true⟩, 3)] 0 =
      Core.Objective.Weighted 0 [(⟨1, true⟩, 3)] ∧
    Core.Objective.new [(⟨1, true⟩, 2), (⟨1, true⟩, 3)] 0 ≠
      Core.Objective.Weighted 0 [(⟨1, true⟩, 2 + 3)] := by decide

/-- C10: the unified literal/weight iterators pair every literal of an
unweighted objective or encoding with weight `1`, not with the unit
weight; the unit-weight multiplier is applied only when a cost is
externalized, as `external = internal * unit_weight + offset`. -/
theorem c10_unit_weight_externalization :
    (∀ (off : Int) (uw : Nat) (enc : Pm.CardEnc),
      (Pm.ObjEncoding.Unweighted off uw enc).iter = enc.lits.map (fun l => (l, 1))) ∧
    (∀ (off : Int) (uw : Nat) (lits : List Lit),
      (Core.Objective.Unweighted off uw lits).iter = lits.map (fun l => (l, 1))) ∧
    (∀ (off : Int) (uw : Nat) (enc : Pm.CardEnc) (cst : Nat)
        (restE : List Pm.ObjEncoding) (restC : List Nat),
      Pm.externalize_internal_costs (.Unweighted off uw enc :: restE) (cst :: restC) =
        (((cst * uw : Nat) : Int) + off) ::
          Pm.externalize_internal_costs restE restC) :=
  ⟨fun _ _ _ => rfl, fun _ _ _ => rfl, fun _ _ _ _ _ _ => rfl⟩

/-- C2 counterexample: with no objective to block (cost tuple `[0]`) and the
fresh switch variable being `5`, `tmp_block_dominated` adds the clause
`[switch]` with `switch = ⟨5, true⟩` and returns `¬switch = ⟨5, false⟩`;
the commit step in `alg_main` / `p_minimization` then adds the stored
literal `⟨5, false⟩` as a unit — the negation of the switch, not the
switch itself as the claim states. -/
theorem c2_commit_unit_cex :
    ((Pm.tmp_block_dominated [0] witState).2).oracle.clauses = [[⟨5, true⟩]] ∧
    (Pm.tmp_block_dominated [0] witState).1 = Lit.neg ⟨5, true⟩ ∧
    (Pm.commit_block (some (Pm.tmp_block_dominated [0] witState).1)
        (Pm.tmp_block_dominated [0] witState).2).oracle.units = [⟨5, false⟩] ∧
    (⟨5, false⟩ : Lit) ≠ (⟨5, true⟩ : Lit) := by
  refine ⟨rfl, rfl, rfl, by decide⟩

/-- C2 amended: the retractable dominance block is implemented by adding the
clause `(block clause) ∨ switch` for a fresh positive switch literal and
returning `¬switch`, which is passed as an assumption to activate the
block; committing the block permanently is done by adding the unit
`¬switch` (the stored activating literal), which forces the block clause
forever. -/
theorem c2_retractable_block (costs : List Nat) (s : Pm.SolverState) :
    (Pm.tmp_block_dominated costs s).1 =
      (Lit.mk (Pm.dominated_block_clause costs s).2.next_var true).neg ∧
    ((Pm.tmp_block_dominated costs s).2).oracle.clauses =
      (Pm.dominated_block_clause costs s).2.oracle.clauses ++
        [(Pm.dominated_block_clause costs s).1 ++
          [Lit.mk (Pm.dominated_block_clause costs s).2.next_var true]] ∧
    ∀ s2 : Pm.SolverState,
      (Pm.commit_block (some ((Pm.tmp_block_dominated costs s).1)) s2).oracle.units =
        s2.oracle.units ++
          [(Lit.mk (Pm.dominated_block_clause costs s).2.next_var true).neg] :=
  ⟨rfl, rfl, fun _ => rfl⟩

/-- C7 counterexample: for the unit soft clause `[⟨1, true⟩]`, the objective
literal returned by `add_soft_clause` (and subsequently registered in
`obj_lit_data`) is the negation `⟨1, false⟩` of the unit literal, not the
unit literal itself. -/
theorem c7_unit_olit_cex :
    (Pm.add_soft_clause [⟨1, true⟩] witState).1.1 = (⟨1, false⟩ : Lit) ∧
    (⟨1, false⟩ : Lit) ≠ (⟨1, true⟩ : Lit) := by
  refine ⟨rfl, by decide⟩

theorem contains_key_track_olit (o : Lit) (i : Nat) (m : List (Lit × Pm.ObjLitData)) :
    contains_key (Pm.track_olit o i m) o = true := by
  unfold Pm.track_olit
  cases h : alookup m o with
  | none =>
    clear h
    induction m with
    | nil => simp [contains_key, alookup]
    | cons p rest ih =>
      by_cases hp : p.1 = o
      · simp [contains_key, alookup, hp]
      · simpa [contains_key, alookup, hp] using ih
  | some d =>
    induction m with
    | nil => simp [alookup] at h
    | cons p rest ih =>
      by_cases hp : p.1 = o
      · simp [contains_key, alookup, hp]
      · simp only [alookup, if_neg hp] at h
        simpa [contains_key, alookup, hp] using ih h

/-- C7 amended: during initialization, a soft clause of length greater than
1 that has not been seen before is relaxed with a fresh blocking literal,
which is cached in `blits`, and the relaxed clause `cls ∨ blit` is handed
back to be added to the oracle once; if the same soft clause reappears
(possibly in another objective), the cached blit is reused and no second
relaxed clause is produced; for a soft clause of length 1, no blit is
allocated and the negation of the unit literal is registered as the
objective literal in `obj_lit_data`. -/
theorem c7_add_soft_clause_amended :
    (∀ (cls : Clause) (s : Pm.SolverState), 1 < cls.length →
      alookup s.blits cls = none →
      (Pm.add_soft_clause cls s).1.1 = (⟨s.next_var, true⟩ : Lit) ∧
      ((Pm.add_soft_clause cls s).2).blits =
        s.blits ++ [(cls, (⟨s.next_var, true⟩ : Lit))] ∧
      (Pm.add_soft_clause cls s).1.2 =
        some ((if s.must_store_clauses then some s.obj_clauses.length else none),
          cls ++ [(⟨s.next_var, true⟩ : Lit)])) ∧
    (∀ (cls : Clause) (s : Pm.SolverState) (b : Lit), 1 < cls.length →
      alookup s.blits cls = some b →
      Pm.add_soft_clause cls s = ((b, none), s)) ∧
    (∀ (l : Lit) (s : Pm.SolverState) (i : Nat),
      Pm.add_soft_clause [l] s = ((l.neg, none), s) ∧
      contains_key (Pm.track_olit ((Pm.add_soft_clause [l] s).1.1) i s.obj_lit_data)
        l.neg = true) := by
  refine ⟨?_, ?_, ?_⟩
  · intro cls s hlen hnone
    unfold Pm.add_soft_clause
    rw [if_neg (by omega), hnone]
    refine ⟨rfl, ?_, ?_⟩ <;> · by_cases hm : s.must_store_clauses <;> simp [hm]
  · intro cls s b hlen hsome
    unfold Pm.add_soft_clause
    rw [if_neg (by omega), hsome]
  · intro l s i
    constructor
    · unfold Pm.add_soft_clause
      rw [if_pos (by simp)]
      rfl
    · have h1 : (Pm.add_soft_clause [l] s).1.1 = l.neg := by
        unfold Pm.add_soft_clause
        rw [if_pos (by simp)]
        rfl
      rw [h1]
      exact contains_key_track_olit l.neg i s.obj_lit_data

/-- A second concrete solver state, whose `blits` table already caches a
soft clause. -/
def witState2 : Pm.SolverState :=
  { witState with blits := [([⟨1, true⟩, ⟨2, true⟩], ⟨9, true⟩)] }

theorem c7_add_soft_clause_amended_witness :
    ((Pm.add_soft_clause [⟨1, true⟩, ⟨2, true⟩] witState).1.1 = (⟨5, true⟩ : Lit) ∧
      ((Pm.add_soft_clause [⟨1, true⟩, ⟨2, true⟩] witState).2).blits =
        witState.blits ++ [([⟨1, true⟩, ⟨2, true⟩], (⟨5, true⟩ : Lit))] ∧
      (Pm.add_soft_clause [⟨1, true⟩, ⟨2, true⟩] witState).1.2 =
        some ((if witState.must_store_clauses
          then some witState.obj_clauses.length else none),
          [⟨1, true⟩, ⟨2, true⟩] ++ [(⟨5, true⟩ : Lit)])) ∧
    Pm.add_soft_clause [⟨1, true⟩, ⟨2, true⟩] witState2 =
      (((⟨9, true⟩ : Lit), none), witState2) ∧
    (Pm.add_soft_clause [⟨1, true⟩] witState = (((⟨1, true⟩ : Lit).neg, none), witState) ∧
      contains_key
        (Pm.track_olit ((Pm.add_soft_clause [⟨1, true⟩] witState).1.1) 0
          witState.obj_lit_data) (⟨1, true⟩ : Lit).neg = true) :=
  ⟨c7_add_soft_clause_amended.1 [⟨1, true⟩, ⟨2, true⟩] witState (by decide) rfl,
   c7_add_soft_clause_amended.2.1 [⟨1, true⟩, ⟨2, true⟩] witState2 ⟨9, true⟩
     (by decide) rfl,
   c7_add_soft_clause_amended.2.2 ⟨1, true⟩ witState 0⟩

/-- C4: if the instance has no original variables (`max_orig_var` is
`none`), `solve` with no limits terminates successfully (no termination
code) and the Pareto front afterwards contains exactly one point, whose
cost tuple is the vector of objective offsets and whose single solution
is the empty assignment.  `loopBody` is the (never entered) main loop. -/
theorem c4_empty_encoding
    (loopBody : Pm.SolverState → Pm.SolverState × Option Termination)
    (s : Pm.SolverState) (h1 : s.max_orig_var = none) (h2 : s.pareto_front = []) :
    (Pm.solve loopBody Pm.Limits.unlimited s).2 = none ∧
    (Pm.solve loopBody Pm.Limits.unlimited s).1.pareto_front =
      [⟨s.obj_encs.map Pm.ObjEncoding.offset, [([] : Assignment)]⟩] := by
  unfold Pm.solve Pm.alg_main
  simp only [h1, h2, Pm.Limits.unlimited, Pm.log_solution, Pm.log_pareto_point,
    Pm.ParetoPoint.new, Pm.ParetoPoint.add_sol]
  exact ⟨rfl, rfl⟩

/-- A concrete solver state with no original variables. -/
def witStateEmpty : Pm.SolverState :=
  { witState with
    max_orig_var := none
    obj_encs := [Pm.ObjEncoding.Constant 4, Pm.ObjEncoding.Constant 0] }

theorem c4_empty_encoding_witness :
    (Pm.solve (fun s => (s, none)) Pm.Limits.unlimited witStateEmpty).2 = none ∧
    (Pm.solve (fun s => (s, none)) Pm.Limits.unlimited witStateEmpty).1.pareto_front =
      [⟨witStateEmpty.obj_encs.map Pm.ObjEncoding.offset, [([] : Assignment)]⟩] :=
  c4_empty_encoding (fun s => (s, none)) witStateEmpty rfl rfl

theorem enforce_dominating_fold_fields (L : List (Nat × Pm.ObjEncoding)) :
    ∀ acc : List Lit × Pm.SolverState,
      (L.foldl Pm.enforce_dominating_step acc).2.lims = acc.2.lims ∧
      (L.foldl Pm.enforce_dominating_step acc).2.pareto_front = acc.2.pareto_front ∧
      (L.foldl Pm.enforce_dominating_step acc).2.obj_encs = acc.2.obj_encs ∧
      (L.foldl Pm.enforce_dominating_step acc).2.max_orig_var = acc.2.max_orig_var := by
  induction L with
  | nil => intro acc; exact ⟨rfl, rfl, rfl, rfl⟩
  | cons p rest ih =>
    intro acc
    have hstep : (Pm.enforce_dominating_step acc p).2.lims = acc.2.lims ∧
        (Pm.enforce_dominating_step acc p).2.pareto_front = acc.2.pareto_front ∧
        (Pm.enforce_dominating_step acc p).2.obj_encs = acc.2.obj_encs ∧
        (Pm.enforce_dominating_step acc p).2.max_orig_var = acc.2.max_orig_var := by
      rcases p with ⟨cst, oe⟩
      cases oe <;> exact ⟨rfl, rfl, rfl, rfl⟩
    have h := ih (Pm.enforce_dominating_step acc p)
    simp only [List.foldl_cons]
    exact ⟨h.1.trans hstep.1, h.2.1.trans hstep.2.1,
      h.2.2.1.trans hstep.2.2.1, h.2.2.2.trans hstep.2.2.2⟩

/-- C5: when the solutions limit is 1, `enumerate_at_pareto_point` fires the
limit on the very first solution it records: it returns the `SolsLimit`
termination (which `alg_main`'s `?` then propagates out of `solve`), and
the in-progress Pareto point — holding exactly the one recorded solution,
truncated to the original variables, with externalized costs — is still
appended to the Pareto front before the termination propagates.  This
holds for every oracle and instance, in particular for one admitting
further solutions at the point. -/
theorem c5_sols_limit
    (oracleSolve : List Lit → OracleState → SolverResult × OracleState)
    (oracleSolution : Nat → OracleState → Assignment)
    (bcg : Assignment → Clause) (fuel : Nat) (costs : List Nat)
    (solution : Assignment) (s : Pm.SolverState)
    (hsols : s.lims.sols = some 1) (hpps : s.lims.pps = none) :
    ∃ s2 : Pm.SolverState,
      Pm.enumerate_at_pareto_point oracleSolve oracleSolution bcg (fuel + 1)
          costs solution s = some (s2, some Termination.SolsLimit) ∧
      s2.pareto_front = s.pareto_front ++
        [⟨Pm.externalize_internal_costs s.obj_encs costs,
          [Pm.truncate solution (s.max_orig_var.getD 0)]⟩] := by
  have hf : (Pm.enforce_dominating costs s).2.lims = s.lims ∧
      (Pm.enforce_dominating costs s).2.pareto_front = s.pareto_front ∧
      (Pm.enforce_dominating costs s).2.obj_encs = s.obj_encs ∧
      (Pm.enforce_dominating costs s).2.max_orig_var = s.max_orig_var :=
    enforce_dominating_fold_fields (costs.zip s.obj_encs) ([], s)
  unfold Pm.enumerate_at_pareto_point Pm.unphase_solution
  simp only [Pm.enum_loop, Pm.log_solution, Pm.log_pareto_point, hf.1, hf.2.1,
    hf.2.2.1, hf.2.2.2, hsols, hpps, Pm.ParetoPoint.new, Pm.ParetoPoint.add_sol]
  exact ⟨_, rfl, rfl⟩

/-- A concrete solver state with a solutions limit of 1. -/
def witState5 : Pm.SolverState :=
  { witState with lims := { sols := some 1 } }

theorem c5_sols_limit_witness :
    ∃ s2 : Pm.SolverState,
      Pm.enumerate_at_pareto_point (fun _ o => (SolverResult.Sat, o)) (fun _ _ => [])
          (fun _ => []) (0 + 1) [0] [TernaryVal.True] witState5 =
        some (s2, some Termination.SolsLimit) ∧
      s2.pareto_front = witState5.pareto_front ++
        [⟨Pm.externalize_internal_costs witState5.obj_encs [0],
          [Pm.truncate [TernaryVal.True] (witState5.max_orig_var.getD 0)]⟩] :=
  c5_sols_limit (fun _ o => (SolverResult.Sat, o)) (fun _ _ => []) (fun _ => [])
    0 [0] [TernaryVal.True] witState5 rfl rfl

theorem gchi_fold_lit_preserved (s : Pm.SolverState) (t g : Bool) (l2 : Lit)
    (hk : contains_key s.obj_lit_data l2 = true) :
    ∀ (lits : List (Lit × Nat)) (sol : Assignment) (cst red : Nat)
      (learned : List Clause), (∀ p ∈ lits, p.1 ≠ l2) →
      lit_value (Pm.gchi_fold s t g lits sol cst red learned).1 l2 =
        lit_value sol l2 := by
  intro lits
  induction lits with
  | nil => intro sol cst red learned hni; rfl
  | cons hd rest ih =>
    rcases hd with ⟨l, w⟩
    intro sol cst red learned hni
    have hl : l ≠ l2 := hni (l, w) (List.mem_cons_self _ _)
    have hni2 : ∀ p ∈ rest, p.1 ≠ l2 := fun p hp => hni p (List.mem_cons_of_mem _ hp)
    simp only [Pm.gchi_fold]
    by_cases hv : lit_value sol l = TernaryVal.True
    · simp only [if_pos hv]
      by_cases hc : ((t || g) && !contains_key s.obj_lit_data l.neg) = true
      · simp only [hc, if_pos]
        have hckn : contains_key s.obj_lit_data l.neg = false := by
          simp only [Bool.and_eq_true, Bool.not_eq_true'] at hc
          exact hc.2
        cases hw : Pm.find_flip_witness s l sol with
        | some wtn =>
          simp only
          by_cases ht : t = true
          · simp only [if_pos ht]
            have hvne : l2.v ≠ l.neg.v := by
              rw [Lit.neg_v]
              intro he
              rcases Lit.eq_or_eq_neg_of_v_eq he with h | h
              · exact hl h.symm
              · rw [h] at hk
                rw [hckn] at hk
                exact Bool.noConfusion hk
            rw [ih (assign_lit sol l.neg) cst (red + w) _ hni2]
            exact lit_value_assign_lit_ne sol l.neg l2 hvne
          · simp only [if_neg ht]
            exact ih sol (cst + w) red _ hni2
        | none =>
          simp only
          exact ih sol (cst + w) red learned hni2
      · simp only [if_neg hc]
        exact ih sol (cst + w) red learned hni2
    · simp only [if_neg hv]
      exact ih sol cst red learned hni2

theorem objValue_assign_ne (m : Lit) :
    ∀ (lits : List (Lit × Nat)) (sol : Assignment),
      (∀ p ∈ lits, p.1.v ≠ m.v) →
      Pm.objValue lits (assign_lit sol m) = Pm.objValue lits sol := by
  intro lits
  induction lits with
  | nil => intro sol h; rfl
  | cons hd rest ih =>
    rcases hd with ⟨l, w⟩
    intro sol h
    have h1 : l.v ≠ m.v := h (l, w) (List.mem_cons_self _ _)
    have h2 : ∀ p ∈ rest, p.1.v ≠ m.v := fun p hp => h p (List.mem_cons_of_mem _ hp)
    simp only [Pm.objValue, lit_value_assign_lit_ne sol m l h1, ih sol h2]

theorem gchi_fold_cost (s : Pm.SolverState) (t g : Bool) :
    ∀ (lits : List (Lit × Nat)) (sol : Assignment) (cst red : Nat)
      (learned : List Clause),
      (lits.map Prod.fst).Nodup →
      (∀ p ∈ lits, contains_key s.obj_lit_data p.1 = true) →
      (Pm.gchi_fold s t g lits sol cst red learned).2.1 =
        cst + Pm.objValue lits (Pm.gchi_fold s t g lits sol cst red learned).1 ∧
      (Pm.gchi_fold s t g lits sol cst red learned).2.1 ≤
        cst + Pm.objValue lits sol := by
  intro lits
  induction lits with
  | nil =>
    intro sol cst red learned hnd hreg
    exact ⟨by simp [Pm.gchi_fold, Pm.objValue], by simp [Pm.gchi_fold, Pm.objValue]⟩
  | cons hd rest ih =>
    rcases hd with ⟨l, w⟩
    intro sol cst red learned hnd hreg
    have hlnotin : l ∉ rest.map Prod.fst := by
      rw [List.map_cons, List.nodup_cons] at hnd
      exact hnd.1
    have hndrest : (rest.map Prod.fst).Nodup := by
      rw [List.map_cons, List.nodup_cons] at hnd
      exact hnd.2
    have hkl : contains_key s.obj_lit_data l = true :=
      hreg (l, w) (List.mem_cons_self _ _)
    have hregrest : ∀ p ∈ rest, contains_key s.obj_lit_data p.1 = true :=
      fun p hp => hreg p (List.mem_cons_of_mem _ hp)
    have hnotl2 : ∀ p ∈ rest, p.1 ≠ l := by
      intro p hp he
      exact hlnotin (he ▸ List.mem_map_of_mem Prod.fst hp)
    simp only [Pm.gchi_fold]
    by_cases hv : lit_value sol l = TernaryVal.True
    · simp only [if_pos hv]
      have hcount : ∀ (red2 : Nat) (learned2 : List Clause),
          (Pm.gchi_fold s t g rest sol (cst + w) red2 learned2).2.1 =
            cst + Pm.objValue ((l, w) :: rest)
              (Pm.gchi_fold s t g rest sol (cst + w) red2 learned2).1 ∧
          (Pm.gchi_fold s t g rest sol (cst + w) red2 learned2).2.1 ≤
            cst + Pm.objValue ((l, w) :: rest) sol := by
        intro red2 learned2
        have IH := ih sol (cst + w) red2 learned2 hndrest hregrest
        have hpres := gchi_fold_lit_preserved s t g l hkl rest sol (cst + w)
          red2 learned2 hnotl2
        constructor
        · rw [IH.1]
          simp only [Pm.objValue, hpres, hv, if_pos]
          omega
        · have h2 := IH.2
          simp only [Pm.objValue, hv, if_pos]
          omega
      by_cases hc : ((t || g) && !contains_key s.obj_lit_data l.neg) = true
      · simp only [hc, if_pos]
        have hckn : contains_key s.obj_lit_data l.neg = false := by
          simp only [Bool.and_eq_true, Bool.not_eq_true'] at hc
          exact hc.2
        cases hw : Pm.find_flip_witness s l sol with
        | some wtn =>
          simp only
          by_cases ht : t = true
          · simp only [if_pos ht]
            have hvars : ∀ p ∈ rest, p.1.v ≠ l.neg.v := by
              intro p hp he
              rw [Lit.neg_v] at he
              rcases Lit.eq_or_eq_neg_of_v_eq he with h | h
              · exact hnotl2 p hp h
              · have := hregrest p hp
                rw [h, hckn] at this
                exact Bool.noConfusion this
            have IH := ih (assign_lit sol l.neg) cst (red + w)
              (if g then learned ++ [wtn.map Lit.neg ++ [l.neg]] else learned)
              hndrest hregrest
            have hpres := gchi_fold_lit_preserved s t g l hkl rest
              (assign_lit sol l.neg) cst (red + w)
              (if g then learned ++ [wtn.map Lit.neg ++ [l.neg]] else learned) hnotl2
            have hflipped : lit_value (assign_lit sol l.neg) l = TernaryVal.False := by
              have h := lit_value_assign_lit_neg_self sol l.neg
              rwa [Lit.neg_neg] at h
            have hobj : Pm.objValue rest (assign_lit sol l.neg) =
                Pm.objValue rest sol := objValue_assign_ne l.neg rest sol hvars
            constructor
            · rw [IH.1]
              simp only [Pm.objValue, hpres, hflipped]
              have hno : ¬(TernaryVal.False = TernaryVal.True) := by decide
              rw [if_neg hno]
              omega
            · have h2 := IH.2
              rw [hobj] at h2
              simp only [Pm.objValue, hv, if_pos]
              omega
          · simp only [if_neg ht]
            exact hcount red _
        | none =>
          simp only
          exact hcount red learned
      · simp only [if_neg hc]
        exact hcount red learned
    · simp only [if_neg hv]
      have IH := ih sol cst red learned hndrest hregrest
      have hpres := gchi_fold_lit_preserved s t g l hkl rest sol cst red learned hnotl2
      constructor
      · rw [IH.1]
        simp only [Pm.objValue, hpres, if_neg hv]
        omega
      · have h2 := IH.2
        simp only [Pm.objValue, if_neg hv]
        omega

/-- C1: for every objective index and candidate assignment, the internal
cost reported by `get_cost_with_heuristic_improvements` equals the
objective's value — the sum of the weights of the objective literals that
are true — under the possibly-modified candidate assignment, and is at
most the objective's value under the original, unmodified candidate.  The
hypotheses are the initialization invariants: the objective's literals
are pairwise distinct (the encoders require unique literals) and every
objective literal is registered in `obj_lit_data`. -/
theorem c1_cost_guarantee (s : Pm.SolverState) (obj_idx : Nat) (sol : Assignment)
    (tightening learning : Bool)
    (hnodup : (((s.obj_encs.getD obj_idx (.Constant 0)).iter).map Prod.fst).Nodup)
    (hreg : ∀ p ∈ (s.obj_encs.getD obj_idx (.Constant 0)).iter,
      contains_key s.obj_lit_data p.1 = true) :
    (Pm.get_cost_with_heuristic_improvements s obj_idx sol tightening learning).2.2 =
      Pm.objValue ((s.obj_encs.getD obj_idx (.Constant 0)).iter)
        (Pm.get_cost_with_heuristic_improvements s obj_idx sol tightening learning).2.1 ∧
    (Pm.get_cost_with_heuristic_improvements s obj_idx sol tightening learning).2.2 ≤
      Pm.objValue ((s.obj_encs.getD obj_idx (.Constant 0)).iter) sol := by
  have h := gchi_fold_cost s tightening learning
    ((s.obj_encs.getD obj_idx (.Constant 0)).iter) sol 0 0 [] hnodup hreg
  unfold Pm.get_cost_with_heuristic_improvements
  simpa using h

/-- A concrete solver state on which the tightening of
`get_cost_with_heuristic_improvements` actually flips a literal: the
objective literal `⟨1, true⟩` is true in the candidate, and the only
clause it appears in is also satisfied by `⟨2, true⟩`. -/
def witStateC1 : Pm.SolverState :=
  { witState with
    obj_encs := [.Unweighted 0 1 witCard]
    obj_clauses := [[⟨1, true⟩, ⟨2, true⟩]]
    obj_lit_data := [(⟨1, true⟩, ⟨[0], [0]⟩)] }

theorem c1_cost_guarantee_witness :
    (Pm.get_cost_with_heuristic_improvements witStateC1 0
        [.DontCare, .True, .True] true false).2.2 =
      Pm.objValue ((witStateC1.obj_encs.getD 0 (.Constant 0)).iter)
        (Pm.get_cost_with_heuristic_improvements witStateC1 0
          [.DontCare, .True, .True] true false).2.1 ∧
    (Pm.get_cost_with_heuristic_improvements witStateC1 0
        [.DontCare, .True, .True] true false).2.2 ≤
      Pm.objValue ((witStateC1.obj_encs.getD 0 (.Constant 0)).iter)
        [.DontCare, .True, .True] :=
  c1_cost_guarantee witStateC1 0 [.DontCare, .True, .True] true false
    (by decide) (by decide)
